import Mathlib

/-!
Verification of the `zobristhash-set` crate: a Zobrist-style XOR accumulator
(`ZobristHashSet`) and the bounded, copiable membership checker
(`CopiableHash`) used by the debug/verification build.

The Rust code is shallowly embedded:
* `u64` values become `Nat` (XOR never overflows, so no truncation is needed);
* the `FxHasher` digest of a key is an abstract function `fx : E → Nat`;
* `assert!` failures (process aborts) become `none` in an `Option` result;
* the fixed-size array `[Option<u64>; DEBUG_MAP_HASH_SIZE]` becomes a
  `List (Option Nat)` whose length is `DEBUG_MAP_HASH_SIZE`.
-/

/-- `const DEBUG_MAP_HASH_SIZE: usize = 1024 * 8;` (copiable_hash.rs line 5). -/
def DEBUG_MAP_HASH_SIZE : Nat := 1024 * 8

/-- `self.data.swap(i, j)` on a Rust slice, embedded on lists.  In the code the
indices are always in bounds; out-of-bounds indices leave the list unchanged. -/
def listSwap {α : Type} (l : List α) (i j : Nat) : List α :=
  match l[i]?, l[j]? with
  | some a, some b => (l.set i b).set j a
  | _, _ => l

/-- The per-slot scan predicate of `CopiableHash::insert`:
`x.map_or(true, |x| x != hash)`. -/
def slotFree (hash : Nat) (x : Option Nat) : Bool :=
  match x with
  | none => true
  | some y => y != hash

/-- The per-slot scan predicate of `CopiableHash::remove`:
`x.map_or(false, |x| x == hash)`. -/
def slotHit (hash : Nat) (x : Option Nat) : Bool :=
  match x with
  | none => false
  | some y => y == hash

/-- `struct CopiableHash<E> { data: [Option<u64>; DEBUG_MAP_HASH_SIZE], len: usize }`.
The `PhantomData<E>` marker carries no data and is omitted; the element type
enters only through the hash function supplied to the operations. -/
structure CopiableHash where
  data : List (Option Nat)
  len : Nat

/-- `CopiableHash::empty`. -/
def CopiableHash.empty : CopiableHash :=
  { data := List.replicate DEBUG_MAP_HASH_SIZE none, len := 0 }

/-- `CopiableHash::insert`.  Computes the probe key `fx key`, scans the occupied
slots `0..len`; a duplicate returns `false` without mutating; otherwise the
capacity assertion aborts (`none`) when `len` is not below
`DEBUG_MAP_HASH_SIZE`, else the probe key is written into slot `len`. -/
def CopiableHash.insert {E : Type} (fx : E → Nat) (c : CopiableHash) (key : E) :
    Option (CopiableHash × Bool) :=
  let hash := fx key
  if (c.data.take c.len).all (slotFree hash) then
    if c.len < DEBUG_MAP_HASH_SIZE then
      some ({ data := c.data.set c.len (some hash), len := c.len + 1 }, true)
    else
      none
  else
    some (c, false)

/-- `CopiableHash::remove`.  Computes the probe key, finds its first position in
the occupied slots `0..len`, swap-removes it with slot `len - 1`; returns
`false` without mutating when the probe key is absent. -/
def CopiableHash.remove {E : Type} (fx : E → Nat) (c : CopiableHash) (key : E) :
    CopiableHash × Bool :=
  let hash := fx key
  match (c.data.take c.len).findIdx? (slotHit hash) with
  | some pos => ({ data := listSwap c.data pos (c.len - 1), len := c.len - 1 }, true)
  | none => (c, false)

/-- Production-build `ZobristHashSet<E>`: just the running `hash: u64`.
(`PhantomData<E>` is omitted as in `CopiableHash`.) -/
structure ZobristHashSet where
  hash : Nat

/-- `ZobristHashSet::empty` (production build). -/
def ZobristHashSet.empty : ZobristHashSet := { hash := 0 }

/-- `impl From<u64> for ZobristHashSet` (production build). -/
def ZobristHashSet.ofU64 (raw : Nat) : ZobristHashSet := { hash := raw }

/-- `impl From<ZobristHashSet<E>> for u64`. -/
def ZobristHashSet.toU64 (z : ZobristHashSet) : Nat := z.hash

/-- `fn add_remove_impl`: XOR the `FxHasher` digest of `key` into the hash. -/
def add_remove_impl {E : Type} (fx : E → Nat) (hash : Nat) (key : E) : Nat :=
  hash ^^^ fx key

/-- `ZobristHashSet::add` (production build). -/
def ZobristHashSet.add {E : Type} (fx : E → Nat) (z : ZobristHashSet) (key : E) :
    ZobristHashSet :=
  { hash := add_remove_impl fx z.hash key }

/-- `ZobristHashSet::remove` (production build): the same XOR update. -/
def ZobristHashSet.remove {E : Type} (fx : E → Nat) (z : ZobristHashSet) (key : E) :
    ZobristHashSet :=
  { hash := add_remove_impl fx z.hash key }

/-- Verification-build `ZobristHashSet<E>` (the
`debug_assertions ∧ check_set_behavior` configuration): the hash together with
the `checker: Option<CopiableHash<E>>` field. -/
structure ZobristHashSetV where
  hash : Nat
  checker : Option CopiableHash

/-- `ZobristHashSet::empty` (verification build): zero hash, fresh checker. -/
def ZobristHashSetV.empty : ZobristHashSetV :=
  { hash := 0, checker := some CopiableHash.empty }

/-- `impl From<u64> for ZobristHashSet` (verification build): `checker: None`. -/
def ZobristHashSetV.ofU64 (raw : Nat) : ZobristHashSetV :=
  { hash := raw, checker := none }

/-- `impl From<ZobristHashSet<E>> for u64` (verification build). -/
def ZobristHashSetV.toU64 (z : ZobristHashSetV) : Nat := z.hash

/-- `ZobristHashSet::add` (verification build):
`assert!(self.checker.as_mut().map(|x| x.insert(key.clone())).unwrap_or(true))`
followed by `add_remove_impl`.  A failed assertion (duplicate add) and the
checker's own capacity abort both yield `none`. -/
def ZobristHashSetV.add {E : Type} (fx : E → Nat) (z : ZobristHashSetV) (key : E) :
    Option ZobristHashSetV :=
  match z.checker with
  | none => some { hash := add_remove_impl fx z.hash key, checker := none }
  | some c =>
    match c.insert fx key with
    | none => none
    | some (c2, ok) =>
      if ok then some { hash := add_remove_impl fx z.hash key, checker := some c2 }
      else none

/-- `ZobristHashSet::remove` (verification build):
`assert!(self.checker.as_mut().map(|x| x.remove(key)).unwrap_or(true))`
followed by `add_remove_impl`. -/
def ZobristHashSetV.remove {E : Type} (fx : E → Nat) (z : ZobristHashSetV) (key : E) :
    Option ZobristHashSetV :=
  match z.checker with
  | none => some { hash := add_remove_impl fx z.hash key, checker := none }
  | some c =>
    match c.remove fx key with
    | (c2, ok) =>
      if ok then some { hash := add_remove_impl fx z.hash key, checker := some c2 }
      else none

/-- One call of a call sequence: `(true, k)` is `add(k)`, `(false, k)` is
`remove(k)` (production build). -/
def stepP {E : Type} (fx : E → Nat) (z : ZobristHashSet) (op : Bool × E) : ZobristHashSet :=
  if op.1 then z.add fx op.2 else z.remove fx op.2

/-- Run a call sequence on the production accumulator, recording the hash value
observable after each call. -/
def runP {E : Type} (fx : E → Nat) : List (Bool × E) → ZobristHashSet → ZobristHashSet × List Nat
  | [], z => (z, [])
  | op :: rest, z =>
    match runP fx rest (stepP fx z op) with
    | (zf, tr) => (zf, (stepP fx z op).hash :: tr)

/-- One call of a call sequence on the verification accumulator; `none` is a
process abort. -/
def stepV {E : Type} (fx : E → Nat) (z : ZobristHashSetV) (op : Bool × E) :
    Option ZobristHashSetV :=
  if op.1 then z.add fx op.2 else z.remove fx op.2

/-- Run a call sequence on the verification accumulator, recording the hash
value observable after each call; aborts propagate. -/
def runV {E : Type} (fx : E → Nat) :
    List (Bool × E) → ZobristHashSetV → Option (ZobristHashSetV × List Nat)
  | [], z => some (z, [])
  | op :: rest, z =>
    match stepV fx z op with
    | none => none
    | some z2 =>
      match runV fx rest z2 with
      | none => none
      | some (zf, tr) => some (zf, z2.hash :: tr)

/-- One call of a call sequence on the bare checker, as exercised by the
`random_test_with_hashset` test: `(true, k)` is `insert(k)`, `(false, k)` is
`remove(&k)`. -/
def stepC {E : Type} (fx : E → Nat) (c : CopiableHash) (op : Bool × E) :
    Option (CopiableHash × Bool) :=
  if op.1 then c.insert fx op.2 else some (c.remove fx op.2)

/-- Run a call sequence on the bare checker, recording every returned boolean;
aborts propagate. -/
def runChecker {E : Type} (fx : E → Nat) :
    List (Bool × E) → CopiableHash → Option (CopiableHash × List Bool)
  | [], c => some (c, [])
  | op :: rest, c =>
    match stepC fx c op with
    | none => none
    | some (c2, b) =>
      match runChecker fx rest c2 with
      | none => none
      | some (cf, bs) => some (cf, b :: bs)

/-- `HashSet::insert` of the reference `std::collections::HashSet`: returns
whether the key was newly inserted. -/
def refInsert {E : Type} [DecidableEq E] (s : List E) (k : E) : List E × Bool :=
  if k ∈ s then (s, false) else (k :: s, true)

/-- `HashSet::remove` of the reference set: returns whether the key was
present. -/
def refRemove {E : Type} [DecidableEq E] (s : List E) (k : E) : List E × Bool :=
  if k ∈ s then (s.erase k, true) else (s, false)

/-- One call of a call sequence on the reference set. -/
def stepRef {E : Type} [DecidableEq E] (s : List E) (op : Bool × E) : List E × Bool :=
  if op.1 then refInsert s op.2 else refRemove s op.2

/-- Run a call sequence on the reference set, recording every returned
boolean. -/
def runRef {E : Type} [DecidableEq E] : List (Bool × E) → List E → List E × List Bool
  | [], s => (s, [])
  | op :: rest, s =>
    match stepRef s op with
    | (s2, b) =>
      match runRef rest s2 with
      | (sf, bs) => (sf, b :: bs)

/-- XOR-fold of a list of hash values. -/
def xorFold (l : List Nat) : Nat := l.foldr (fun a b => a ^^^ b) 0

/-! ### Generic list helpers -/

theorem listSwap_length {α : Type} (l : List α) (i j : Nat) :
    (listSwap l i j).length = l.length := by
  unfold listSwap
  cases l[i]? <;> cases l[j]? <;> simp [List.length_set]

theorem take_set_ge {α : Type} :
    ∀ (l : List α) (i j : Nat) (a : α), j ≤ i → (l.set i a).take j = l.take j := by
  intro l
  induction l with
  | nil => intro i j a _; rfl
  | cons x t ih =>
    intro i j a hji
    cases j with
    | zero => simp
    | succ j' =>
      cases i with
      | zero => omega
      | succ i' =>
        simp only [List.set_cons_succ, List.take_succ_cons]
        rw [ih i' j' a (by omega)]

theorem take_set_lt {α : Type} :
    ∀ (l : List α) (i j : Nat) (a : α), i < j → (l.set i a).take j = (l.take j).set i a := by
  intro l
  induction l with
  | nil => intro i j a _; simp
  | cons x t ih =>
    intro i j a hij
    cases j with
    | zero => omega
    | succ j' =>
      cases i with
      | zero => simp
      | succ i' =>
        simp only [List.set_cons_succ, List.take_succ_cons]
        rw [ih i' j' a (by omega)]

theorem set_get_self {α : Type} :
    ∀ (l : List α) (i : Nat) (a : α), l[i]? = some a → l.set i a = l := by
  intro l
  induction l with
  | nil => intro i a h; simp at h
  | cons x t ih =>
    intro i a h
    cases i with
    | zero => simp at h; simp [h]
    | succ i' =>
      simp only [List.getElem?_cons_succ] at h
      simp [ih i' a h]

theorem listSwap_self {α : Type} (l : List α) (i : Nat) : listSwap l i i = l := by
  unfold listSwap
  cases h : l[i]? with
  | none => rfl
  | some a => simp [List.set_set, set_get_self l i a h]

theorem set_perm_eraseIdx {α : Type} :
    ∀ (l : List α) (i : Nat) (a : α), i < l.length →
      List.Perm (l.set i a) (a :: l.eraseIdx i) := by
  intro l
  induction l with
  | nil => intro i a h; simp at h
  | cons x t ih =>
    intro i a h
    cases i with
    | zero => simp
    | succ i' =>
      simp only [List.set_cons_succ, List.eraseIdx_cons_succ]
      refine ((ih i' a (by simpa using h)).cons x).trans ?h
      exact List.Perm.swap a x (t.eraseIdx i')

theorem perm_cons_eraseIdx {α : Type} :
    ∀ (l : List α) (pos : Nat) (x : α), l[pos]? = some x →
      List.Perm l (x :: l.eraseIdx pos) := by
  intro l
  induction l with
  | nil => intro pos x h; simp at h
  | cons a t ih =>
    intro pos x h
    cases pos with
    | zero =>
      simp only [List.getElem?_cons_zero] at h
      rw [Option.some.inj h, List.eraseIdx_cons_zero]
    | succ p =>
      simp only [List.getElem?_cons_succ] at h
      rw [List.eraseIdx_cons_succ]
      exact ((ih p x h).cons a).trans (List.Perm.swap x a (t.eraseIdx p))

theorem eraseIdx_append_lt {α : Type} :
    ∀ (A : List α) (y : α) (i : Nat), i < A.length →
      (A ++ [y]).eraseIdx i = A.eraseIdx i ++ [y] := by
  intro A
  induction A with
  | nil => intro y i h; simp at h
  | cons x t ih =>
    intro y i h
    cases i with
    | zero => simp
    | succ i' =>
      simp only [List.cons_append, List.eraseIdx_cons_succ]
      rw [ih y i' (by simpa using h)]

theorem eraseIdx_append_len {α : Type} :
    ∀ (A : List α) (y : α), (A ++ [y]).eraseIdx A.length = A := by
  intro A
  induction A with
  | nil => intro y; rfl
  | cons x t ih => intro y; simp only [List.cons_append, List.length_cons,
      List.eraseIdx_cons_succ]; rw [ih y]

theorem take_succ_getElem {α : Type} (l : List α) (i : Nat) (a : α) (h : l[i]? = some a) :
    l.take (i + 1) = l.take i ++ [a] := by
  rw [List.take_succ, h]; rfl

theorem take_set_self {α : Type} (l : List α) (i : Nat) (a : α) (hi : i < l.length) :
    (l.set i a).take (i + 1) = l.take i ++ [a] := by
  have h1 : (l.set i a)[i]? = some a := by
    rw [List.getElem?_set]; simp [hi]
  rw [take_succ_getElem (l.set i a) i a h1, take_set_ge l i i a (Nat.le_refl i)]

theorem swap_take_perm {α : Type} (l : List α) (pos n : Nat)
    (hpos : pos < n) (hn : n ≤ l.length) :
    List.Perm ((listSwap l pos (n - 1)).take (n - 1)) ((l.take n).eraseIdx pos) := by
  have hm : n - 1 < l.length := by omega
  obtain ⟨y, hy⟩ : ∃ y, l[n - 1]? = some y := by
    cases h : l[n - 1]? with
    | none => rw [List.getElem?_eq_none_iff] at h; omega
    | some y => exact ⟨y, rfl⟩
  have hnsucc : n = (n - 1) + 1 := by omega
  have htake : l.take n = l.take (n - 1) ++ [y] := by
    have h0 : l.take n = l.take ((n - 1) + 1) := by rw [← hnsucc]
    rw [h0, take_succ_getElem l (n - 1) y hy]
  have hlenT : (l.take (n - 1)).length = n - 1 := by
    rw [List.length_take]; omega
  by_cases hpe : pos = n - 1
  · rw [hpe, listSwap_self, htake]
    have h2 := eraseIdx_append_len (l.take (n - 1)) y
    rw [hlenT] at h2
    rw [h2]
  · have hplt : pos < n - 1 := by omega
    obtain ⟨x, hx⟩ : ∃ x, l[pos]? = some x := by
      cases h : l[pos]? with
      | none => rw [List.getElem?_eq_none_iff] at h; omega
      | some x => exact ⟨x, rfl⟩
    have hswap : listSwap l pos (n - 1) = (l.set pos y).set (n - 1) x := by
      unfold listSwap; rw [hx, hy]
    rw [hswap, take_set_ge _ _ _ _ (Nat.le_refl (n - 1)), take_set_lt _ _ _ _ hplt, htake,
      eraseIdx_append_lt _ _ _ (by rw [hlenT]; exact hplt)]
    refine (set_perm_eraseIdx (l.take (n - 1)) pos y (by rw [hlenT]; exact hplt)).trans ?h
    exact (List.perm_append_singleton y ((l.take (n - 1)).eraseIdx pos)).symm

/-! ### XOR-fold lemmas -/

theorem xorFold_nil : xorFold [] = 0 := rfl

theorem xorFold_cons (a : Nat) (l : List Nat) :
    xorFold (a :: l) = a ^^^ xorFold l := rfl

theorem xorFold_perm {l₁ l₂ : List Nat} (h : List.Perm l₁ l₂) : xorFold l₁ = xorFold l₂ := by
  induction h with
  | nil => rfl
  | cons x _ ih => rw [xorFold_cons, xorFold_cons, ih]
  | swap x y l =>
    rw [xorFold_cons, xorFold_cons, xorFold_cons, xorFold_cons,
      ← Nat.xor_assoc, Nat.xor_comm y x, Nat.xor_assoc]
  | trans _ _ ih1 ih2 => exact ih1.trans ih2

theorem xorFold_append (l₁ l₂ : List Nat) :
    xorFold (l₁ ++ l₂) = xorFold l₁ ^^^ xorFold l₂ := by
  induction l₁ with
  | nil => rw [List.nil_append, xorFold_nil, Nat.zero_xor]
  | cons a t ih => rw [List.cons_append, xorFold_cons, xorFold_cons, ih, Nat.xor_assoc]

/-! ### Scan-predicate lemmas -/

theorem slotFree_iff (h : Nat) (x : Option Nat) : slotFree h x = true ↔ x ≠ some h := by
  cases x with
  | none => simp [slotFree]
  | some y => simp [slotFree]

theorem all_slotFree_iff (h : Nat) (l : List (Option Nat)) :
    l.all (slotFree h) = true ↔ some h ∉ l := by
  rw [List.all_eq_true]
  constructor
  · intro H hmem
    exact ((slotFree_iff h (some h)).mp (H _ hmem)) rfl
  · intro H x hx
    exact (slotFree_iff h x).mpr (fun he => H (he ▸ hx))

theorem slotHit_iff (h : Nat) (x : Option Nat) : slotHit h x = true ↔ x = some h := by
  cases x with
  | none => simp [slotHit]
  | some y => simp [slotHit]

theorem findIdx?_slotHit_none {h : Nat} :
    ∀ (l : List (Option Nat)) (i : Nat), some h ∉ l → l.findIdx? (slotHit h) i = none := by
  intro l
  induction l with
  | nil => intro i _; simp
  | cons x t ih =>
    intro i hnm
    rw [List.findIdx?_cons]
    have hx : slotHit h x ≠ true := fun hc =>
      hnm (((slotHit_iff h x).mp hc) ▸ List.mem_cons_self x t)
    simp only [hx, if_false, Bool.not_eq_true] at *
    exact ih (i + 1) (fun hm => hnm (List.mem_cons_of_mem x hm))

theorem findIdx?_slotHit_isSome {h : Nat} :
    ∀ (l : List (Option Nat)) (i : Nat), some h ∈ l →
      ∃ pos, l.findIdx? (slotHit h) i = some pos := by
  intro l
  induction l with
  | nil => intro i hm; simp at hm
  | cons x t ih =>
    intro i hm
    rw [List.findIdx?_cons]
    by_cases hx : slotHit h x = true
    · exact ⟨i, by rw [hx]; rfl⟩
    · have hxne : x ≠ some h := fun he => hx ((slotHit_iff h x).mpr he)
      have hmt : some h ∈ t := by
        rcases List.mem_cons.mp hm with he | hmt
        · exact absurd he.symm hxne
        · exact hmt
      simp only [hx, if_false]
      exact ih (i + 1) hmt

theorem findIdx?_slotHit_some {h : Nat} :
    ∀ (l : List (Option Nat)) (i pos : Nat), l.findIdx? (slotHit h) i = some pos →
      i ≤ pos ∧ pos - i < l.length ∧ l[pos - i]? = some (some h) ∧ some h ∈ l := by
  intro l
  induction l with
  | nil => intro i pos hf; simp at hf
  | cons x t ih =>
    intro i pos hf
    rw [List.findIdx?_cons] at hf
    by_cases hx : slotHit h x = true
    · rw [if_pos hx] at hf
      have hpi : pos = i := (Option.some.inj hf).symm
      have hxv : x = some h := (slotHit_iff h x).mp hx
      subst hpi hxv
      refine ⟨Nat.le_refl _, ?p2, ?p3, ?p4⟩
      · simp
      · simp
      · exact List.mem_cons_self _ _
    · rw [if_neg hx] at hf
      obtain ⟨h1, h2, h3, h4⟩ := ih (i + 1) pos hf
      have hsub : pos - i = (pos - (i + 1)) + 1 := by omega
      refine ⟨by omega, ?q2, ?q3, ?q4⟩
      · simp only [List.length_cons]; omega
      · rw [hsub, List.getElem?_cons_succ]; exact h3
      · exact List.mem_cons_of_mem x h4

/-! ### map-some helpers -/

theorem filterMap_id_map_some (m : List Nat) : (m.map some).filterMap id = m := by
  induction m with
  | nil => rfl
  | cons a t ih => simp [List.filterMap_cons, ih]

theorem all_some_exists :
    ∀ (l : List (Option Nat)), (∀ x ∈ l, ∃ y, x = some y) → ∃ m : List Nat, l = m.map some := by
  intro l
  induction l with
  | nil => intro _; exact ⟨[], rfl⟩
  | cons x t ih =>
    intro hall
    obtain ⟨y, hy⟩ := hall x (List.mem_cons_self x t)
    obtain ⟨m, hm⟩ := ih (fun z hz => hall z (List.mem_cons_of_mem x hz))
    exact ⟨y :: m, by rw [hy, hm]; rfl⟩

theorem perm_map_some {l : List (Option Nat)} {m : List Nat}
    (hp : List.Perm l (m.map some)) : ∃ m' : List Nat, l = m'.map some ∧ List.Perm m' m := by
  obtain ⟨m', hm'⟩ := all_some_exists l (by
    intro x hx
    have hx2 : x ∈ m.map some := hp.mem_iff.mp hx
    obtain ⟨y, _, hy⟩ := List.mem_map.mp hx2
    exact ⟨y, hy.symm⟩)
  refine ⟨m', hm', ?p⟩
  have h2 : List.Perm ((m'.map some).filterMap id) ((m.map some).filterMap id) :=
    List.Perm.filterMap id (hm' ▸ hp)
  rwa [filterMap_id_map_some, filterMap_id_map_some] at h2

/-! ### Checker operation equations -/

theorem insert_eq_dup {E : Type} (fx : E → Nat) (c : CopiableHash) (key : E)
    (hmem : some (fx key) ∈ c.data.take c.len) :
    c.insert fx key = some (c, false) := by
  have hall : (c.data.take c.len).all (slotFree (fx key)) = false := by
    rw [Bool.eq_false_iff]
    intro hc
    exact ((all_slotFree_iff (fx key) (c.data.take c.len)).mp hc) hmem
  simp [CopiableHash.insert, hall]

theorem insert_eq_new {E : Type} (fx : E → Nat) (c : CopiableHash) (key : E)
    (hnm : some (fx key) ∉ c.data.take c.len) (hlt : c.len < DEBUG_MAP_HASH_SIZE) :
    c.insert fx key =
      some ({ data := c.data.set c.len (some (fx key)), len := c.len + 1 }, true) := by
  have hall := (all_slotFree_iff (fx key) (c.data.take c.len)).mpr hnm
  simp [CopiableHash.insert, hall, hlt]

theorem insert_eq_cap {E : Type} (fx : E → Nat) (c : CopiableHash) (key : E)
    (hnm : some (fx key) ∉ c.data.take c.len) (hge : ¬ c.len < DEBUG_MAP_HASH_SIZE) :
    c.insert fx key = none := by
  have hall := (all_slotFree_iff (fx key) (c.data.take c.len)).mpr hnm
  simp [CopiableHash.insert, hall, hge]

theorem remove_eq_miss {E : Type} (fx : E → Nat) (c : CopiableHash) (key : E)
    (hnm : some (fx key) ∉ c.data.take c.len) :
    c.remove fx key = (c, false) := by
  simp [CopiableHash.remove, findIdx?_slotHit_none (c.data.take c.len) 0 hnm]

theorem remove_eq_hit {E : Type} (fx : E → Nat) (c : CopiableHash) (key : E) (pos : Nat)
    (hf : (c.data.take c.len).findIdx? (slotHit (fx key)) = some pos) :
    c.remove fx key =
      ({ data := listSwap c.data pos (c.len - 1), len := c.len - 1 }, true) := by
  simp [CopiableHash.remove, hf]

/-! ### Production-run lemmas -/

theorem stepP_hash {E : Type} (fx : E → Nat) (z : ZobristHashSet) (op : Bool × E) :
    (stepP fx z op).hash = z.hash ^^^ fx op.2 := by
  unfold stepP
  cases op.1 <;> simp [ZobristHashSet.add, ZobristHashSet.remove, add_remove_impl]

theorem runP_fst_hash {E : Type} (fx : E → Nat) :
    ∀ (ops : List (Bool × E)) (z : ZobristHashSet),
      (runP fx ops z).1.hash = z.hash ^^^ xorFold (ops.map (fun p => fx p.2)) := by
  intro ops
  induction ops with
  | nil => intro z; simp [runP, xorFold_nil]
  | cons op rest ih =>
    intro z
    simp only [runP]
    cases hr : runP fx rest (stepP fx z op) with
    | mk zf tr =>
      have h1 := ih (stepP fx z op)
      rw [hr] at h1
      simp only [List.map_cons, xorFold_cons]
      rw [h1, stepP_hash, Nat.xor_assoc]

/-! ### Balanced-sequence lemmas -/

theorem count_map_snd {E : Type} [DecidableEq E] :
    ∀ (ops : List (Bool × E)) (k : E),
      (ops.map Prod.snd).count k = ops.count (true, k) + ops.count (false, k) := by
  intro ops
  induction ops with
  | nil => intro k; rfl
  | cons p rest ih =>
    intro k
    obtain ⟨b, k'⟩ := p
    rw [List.map_cons, List.count_cons, List.count_cons, List.count_cons, ih k]
    cases b <;> by_cases hk : k' = k <;> simp [hk] <;> omega

theorem xorFold_map_even {E : Type} [DecidableEq E] (fx : E → Nat) :
    ∀ (n : Nat) (l : List E), l.length = n → (∀ k, Even (l.count k)) →
      xorFold (l.map fx) = 0 := by
  intro n
  induction n using Nat.strong_induction_on with
  | _ n ih =>
    intro l hlen hev
    cases l with
    | nil => rfl
    | cons a t =>
      have h1 := hev a
      rw [List.count_cons_self] at h1
      have hmem : a ∈ t := by
        by_contra hna
        rw [List.count_eq_zero.mpr hna] at h1
        exact (by decide : ¬ Even (0 + 1)) h1
      have hperm : List.Perm (a :: t) (a :: a :: t.erase a) :=
        (List.perm_cons_erase hmem).cons a
      rw [xorFold_perm (hperm.map fx), List.map_cons, List.map_cons, xorFold_cons,
        xorFold_cons, ← Nat.xor_assoc, Nat.xor_self, Nat.zero_xor]
      have hlt : (t.erase a).length < n := by
        rw [List.length_erase_of_mem hmem]
        have h2 : t.length + 1 = n := by simpa using hlen
        omega
      refine ih (t.erase a).length hlt (t.erase a) rfl ?hev2
      intro k
      by_cases hk : k = a
      · subst hk
        rw [List.count_erase_self]
        have hpos : 0 < t.count k := List.count_pos_iff.mpr hmem
        rw [Nat.even_iff] at h1 ⊢
        omega
      · rw [List.count_erase_of_ne hk]
        have h2 := hev k
        have hne : (a == k) = false := by
          rw [Bool.eq_false_iff]
          intro hc
          exact hk (beq_iff_eq.mp hc).symm
        rw [List.count_cons, hne] at h2
        simpa using h2

theorem zobristHashSet_hash_eq {a b : ZobristHashSet} (h : a.hash = b.hash) : a = b := by
  cases a; cases b; simpa using h

/-! ### Claims C1 to C3 -/

/-- C1: for every accumulator state `s` (any u64 hash value) and key `k`,
`add(k)` then `remove(k)`, and `remove(k)` then `add(k)`, both return the
production accumulator exactly to state `s`: both operations XOR the same
per-key hash into the value. -/
theorem add_remove_self_inverse {E : Type} (fx : E → Nat) (s : Nat) (k : E) :
    ((ZobristHashSet.ofU64 s).add fx k).remove fx k = ZobristHashSet.ofU64 s ∧
    ((ZobristHashSet.ofU64 s).remove fx k).add fx k = ZobristHashSet.ofU64 s := by
  constructor <;>
    simp [ZobristHashSet.add, ZobristHashSet.remove, ZobristHashSet.ofU64,
      add_remove_impl, Nat.xor_assoc, Nat.xor_self, Nat.xor_zero]

/-- C2: `empty()` has value 0, and every balanced call sequence from `empty()`
(each key added as often as removed) ends with value exactly 0. -/
theorem zero_baseline {E : Type} [DecidableEq E] (fx : E → Nat) (ops : List (Bool × E))
    (hbal : ∀ k ∈ ops.map Prod.snd, ops.count (true, k) = ops.count (false, k)) :
    ZobristHashSet.empty.hash = 0 ∧ (runP fx ops ZobristHashSet.empty).1.hash = 0 := by
  refine ⟨rfl, ?bal⟩
  rw [runP_fst_hash]
  have hmap : ops.map (fun p => fx p.2) = (ops.map Prod.snd).map fx := by
    simp [List.map_map, Function.comp]
  rw [hmap]
  have hz : ZobristHashSet.empty.hash = 0 := rfl
  rw [hz, Nat.zero_xor]
  refine xorFold_map_even fx (ops.map Prod.snd).length (ops.map Prod.snd) rfl ?hev
  intro k
  rw [count_map_snd]
  by_cases hk : k ∈ ops.map Prod.snd
  · rw [hbal k hk]
    exact ⟨ops.count (false, k), rfl⟩
  · have h1 : ops.count (true, k) = 0 := by
      rw [List.count_eq_zero]
      intro hc
      exact hk (List.mem_map.mpr ⟨(true, k), hc, rfl⟩)
    have h2 : ops.count (false, k) = 0 := by
      rw [List.count_eq_zero]
      intro hc
      exact hk (List.mem_map.mpr ⟨(false, k), hc, rfl⟩)
    rw [h1, h2]
    exact ⟨0, rfl⟩

/-- Witness for C2 at a concrete balanced sequence. -/
theorem zero_baseline_witness :
    ZobristHashSet.empty.hash = 0 ∧
    (runP (fun n : Nat => n) [(true, 5), (true, 7), (false, 7), (false, 5)]
      ZobristHashSet.empty).1.hash = 0 :=
  zero_baseline (fun n : Nat => n) [(true, 5), (true, 7), (false, 7), (false, 5)]
    (by decide)

/-- C3: applying two permutations of the same multiset of add/remove calls to
the same starting production accumulator yields the same final accumulator. -/
theorem order_independence {E : Type} (fx : E → Nat) (ops₁ ops₂ : List (Bool × E))
    (hperm : List.Perm ops₁ ops₂) (z : ZobristHashSet) :
    (runP fx ops₁ z).1 = (runP fx ops₂ z).1 := by
  apply zobristHashSet_hash_eq
  rw [runP_fst_hash, runP_fst_hash,
    xorFold_perm (hperm.map (fun p => fx p.2))]

/-- Witness for C3 at a concrete permutation pair. -/
theorem order_independence_witness :
    (runP (fun n : Nat => n) [(true, 1), (true, 2), (false, 3)] ZobristHashSet.empty).1 =
    (runP (fun n : Nat => n) [(false, 3), (true, 2), (true, 1)] ZobristHashSet.empty).1 :=
  order_independence (fun n : Nat => n) _ _ (by decide) ZobristHashSet.empty

/-! ### Sequential insertion of distinct keys -/

theorem insertAll_ok {E : Type} (fx : E → Nat) :
    ∀ (ks : List E) (c : CopiableHash),
      c.data.length = DEBUG_MAP_HASH_SIZE →
      c.len + ks.length ≤ DEBUG_MAP_HASH_SIZE →
      (∀ k ∈ ks, some (fx k) ∉ c.data.take c.len) →
      (ks.map fx).Nodup →
      ∃ c', runChecker fx (ks.map (fun k => (true, k))) c =
          some (c', List.replicate ks.length true) ∧
        c'.len = c.len + ks.length ∧ c'.data.length = DEBUG_MAP_HASH_SIZE ∧
        c'.data.take c'.len = c.data.take c.len ++ ks.map (fun k => some (fx k)) := by
  intro ks
  induction ks with
  | nil =>
    intro c h1 _ _ _
    exact ⟨c, rfl, by simp, h1, by simp⟩
  | cons k rest ih =>
    intro c h1 h2 h3 h4
    have hlt : c.len < DEBUG_MAP_HASH_SIZE := by
      simp only [List.length_cons] at h2; omega
    have hnm : some (fx k) ∉ c.data.take c.len := h3 k (List.mem_cons_self k rest)
    have hins := insert_eq_new fx c k hnm hlt
    obtain ⟨hkf, hrestnd⟩ : (∀ x ∈ rest, ¬ fx x = fx k) ∧ (rest.map fx).Nodup := by
      simpa using h4
    have hc2len : ({ data := c.data.set c.len (some (fx k)), len := c.len + 1 } :
        CopiableHash).data.length = DEBUG_MAP_HASH_SIZE := by
      simp [List.length_set, h1]
    have hc2take :
        ({ data := c.data.set c.len (some (fx k)), len := c.len + 1 } :
          CopiableHash).data.take (c.len + 1) =
        c.data.take c.len ++ [some (fx k)] :=
      take_set_self c.data c.len (some (fx k)) (by rw [h1]; exact hlt)
    obtain ⟨c', hrun, hl, hd, ht⟩ :=
      ih { data := c.data.set c.len (some (fx k)), len := c.len + 1 }
        (by simpa using hc2len)
        (by simp only [List.length_cons] at h2; simpa using (by omega : c.len + 1 + rest.length ≤ DEBUG_MAP_HASH_SIZE))
        (by
          intro k' hk'
          simp only [hc2take]
          rw [List.mem_append]
          rintro (hin | hin)
          · exact h3 k' (List.mem_cons_of_mem k hk') hin
          · have : fx k' = fx k := by simpa using hin
            exact hkf k' hk' this)
        hrestnd
    have hstep : stepC fx c (true, k) =
        some ({ data := c.data.set c.len (some (fx k)), len := c.len + 1 }, true) := by
      rw [show stepC fx c (true, k) = c.insert fx k from rfl, hins]
    refine ⟨c', ?run, ?len, hd, ?tk⟩
    · simp only [List.map_cons, runChecker, hstep, hrun, List.length_cons,
        List.replicate_succ]
    · simp only [hl, List.length_cons]; omega
    · rw [ht]
      simp only [hc2take, List.map_cons, List.append_assoc, List.cons_append,
        List.nil_append]

/-! ### Claims C5 to C7 -/

/-- C5: `insert` semantics of the bounded checker: a probe key already in the
occupied slots returns `false` without mutation; a new probe key at full
capacity aborts; otherwise it is appended at slot `len`, `len` is incremented
and `true` is returned.  In particular a run of inserts of up-to-capacity many
pairwise distinct probe keys returns all `true`, and at exactly capacity one
further distinct probe key aborts. -/
theorem insert_semantics {E : Type} (fx : E → Nat) (c : CopiableHash) (key : E) :
    (some (fx key) ∈ c.data.take c.len → c.insert fx key = some (c, false)) ∧
    (some (fx key) ∉ c.data.take c.len → c.len = DEBUG_MAP_HASH_SIZE →
      c.insert fx key = none) ∧
    (some (fx key) ∉ c.data.take c.len → c.len < DEBUG_MAP_HASH_SIZE →
      c.insert fx key =
        some ({ data := c.data.set c.len (some (fx key)), len := c.len + 1 }, true)) ∧
    (∀ ks : List E, (ks.map fx).Nodup → ks.length ≤ DEBUG_MAP_HASH_SIZE →
      ∃ c', runChecker fx (ks.map (fun k => (true, k))) CopiableHash.empty =
          some (c', List.replicate ks.length true)) ∧
    (∀ ks : List E, (ks.map fx).Nodup → ks.length = DEBUG_MAP_HASH_SIZE →
      ∀ k', fx k' ∉ ks.map fx →
        ∃ c', runChecker fx (ks.map (fun k => (true, k))) CopiableHash.empty =
            some (c', List.replicate DEBUG_MAP_HASH_SIZE true) ∧
          c'.insert fx k' = none) := by
  have hde : CopiableHash.empty.data.length = DEBUG_MAP_HASH_SIZE := by
    simp [CopiableHash.empty, List.length_replicate]
  have htk0 : CopiableHash.empty.data.take CopiableHash.empty.len = [] := by
    simp [CopiableHash.empty]
  refine ⟨insert_eq_dup fx c key, ?cap, insert_eq_new fx c key, ?allok, ?oneMore⟩
  · intro hnm hfull
    exact insert_eq_cap fx c key hnm (by omega)
  · intro ks hnd hle
    obtain ⟨c', hrun, _, _, _⟩ := insertAll_ok fx ks CopiableHash.empty hde
      (by simpa [CopiableHash.empty] using hle)
      (by intro k _; rw [htk0]; exact List.not_mem_nil _) hnd
    exact ⟨c', hrun⟩
  · intro ks hnd hlen k' hk'
    obtain ⟨c', hrun, hl, _, ht⟩ := insertAll_ok fx ks CopiableHash.empty hde
      (by simp [CopiableHash.empty, hlen])
      (by intro k _; rw [htk0]; exact List.not_mem_nil _) hnd
    rw [hlen] at hrun
    refine ⟨c', hrun, ?abort⟩
    have hnm : some (fx k') ∉ c'.data.take c'.len := by
      rw [ht, htk0, List.nil_append]
      intro hin
      obtain ⟨k, hk, he⟩ := List.mem_map.mp hin
      exact hk' (List.mem_map.mpr ⟨k, hk, by simpa using he⟩)
    exact insert_eq_cap fx c' k' hnm (by simp [hl, hlen, CopiableHash.empty])

/-- Witness for C5: a fresh insert into the empty checker appends the probe
key at slot 0. -/
theorem insert_semantics_witness :
    CopiableHash.empty.insert (fun n : Nat => n) 5 =
      some ({ data := CopiableHash.empty.data.set CopiableHash.empty.len (some 5),
              len := CopiableHash.empty.len + 1 }, true) :=
  (insert_semantics (fun n : Nat => n) CopiableHash.empty 5).2.2.1
    (by simp [CopiableHash.empty]) (by decide)

/-- C6: `remove` semantics of the bounded checker: on a miss it returns
`false` and leaves the state unchanged; on a hit at index `pos` it swaps slot
`pos` with slot `len - 1`, decrements `len`, returns `true`, and the occupied
slots `0..len-1` stay contiguously filled. -/
theorem remove_semantics {E : Type} (fx : E → Nat) (c : CopiableHash) (key : E)
    (hwf : c.data.length = DEBUG_MAP_HASH_SIZE) (hlen : c.len ≤ DEBUG_MAP_HASH_SIZE)
    (hocc : ∀ x ∈ c.data.take c.len, ∃ y, x = some y) :
    (some (fx key) ∉ c.data.take c.len → c.remove fx key = (c, false)) ∧
    (∀ pos, (c.data.take c.len).findIdx? (slotHit (fx key)) = some pos →
      pos < c.len ∧ (c.data.take c.len)[pos]? = some (some (fx key)) ∧
      c.remove fx key =
        ({ data := listSwap c.data pos (c.len - 1), len := c.len - 1 }, true) ∧
      ∀ x ∈ (listSwap c.data pos (c.len - 1)).take (c.len - 1), ∃ y, x = some y) := by
  have hplen : (c.data.take c.len).length = c.len := by
    rw [List.length_take, hwf]
    exact min_eq_left hlen
  refine ⟨remove_eq_miss fx c key, ?hit⟩
  intro pos hf
  obtain ⟨_, h2, h3, _⟩ := findIdx?_slotHit_some (c.data.take c.len) 0 pos hf
  simp only [Nat.sub_zero] at h2 h3
  have hposlt : pos < c.len := by rw [hplen] at h2; exact h2
  refine ⟨hposlt, h3, remove_eq_hit fx c key pos hf, ?occ⟩
  intro x hx
  have hperm := swap_take_perm c.data pos c.len hposlt (by rw [hwf]; exact hlen)
  have hx2 : x ∈ (c.data.take c.len).eraseIdx pos := hperm.mem_iff.mp hx
  exact hocc x ((List.eraseIdx_sublist _ pos).subset hx2)

/-- A concrete checker state used by the C6 witness: probe keys 1 and 2 occupy
the first two slots. -/
def removeSample : CopiableHash :=
  { data := some 1 :: some 2 :: List.replicate (DEBUG_MAP_HASH_SIZE - 2) none, len := 2 }

/-- Witness for C6: removing probe key 2 from `removeSample` swap-removes
slot 1 against slot `len - 1` and reports `true`. -/
theorem remove_semantics_witness :
    removeSample.remove (fun n : Nat => n) 2 =
      ({ data := listSwap removeSample.data 1 (removeSample.len - 1),
         len := removeSample.len - 1 }, true) :=
  ((remove_semantics (fun n : Nat => n) removeSample 2
      (by
        have hsz : DEBUG_MAP_HASH_SIZE = 8192 := by norm_num [DEBUG_MAP_HASH_SIZE]
        simp only [removeSample, List.length_cons, List.length_replicate]
        omega)
      (by
        have hsz : DEBUG_MAP_HASH_SIZE = 8192 := by norm_num [DEBUG_MAP_HASH_SIZE]
        simp only [removeSample]
        omega)
      (by
        intro x hx
        have htk : removeSample.data.take removeSample.len = [some 1, some 2] := by decide
        rw [htk] at hx
        simp only [List.mem_cons, List.not_mem_nil, or_false] at hx
        rcases hx with rfl | rfl
        · exact ⟨1, rfl⟩
        · exact ⟨2, rfl⟩)).2 1 (by decide)).2.2.1

/-! ### Verification-build step equations -/

theorem addV_dup {E : Type} (fx : E → Nat) (zh : Nat) (c : CopiableHash) (key : E)
    (hmem : some (fx key) ∈ c.data.take c.len) :
    ZobristHashSetV.add fx { hash := zh, checker := some c } key = none := by
  simp [ZobristHashSetV.add, insert_eq_dup fx c key hmem]

theorem addV_new {E : Type} (fx : E → Nat) (zh : Nat) (c : CopiableHash) (key : E)
    (hnm : some (fx key) ∉ c.data.take c.len) (hlt : c.len < DEBUG_MAP_HASH_SIZE) :
    ZobristHashSetV.add fx { hash := zh, checker := some c } key =
      some { hash := add_remove_impl fx zh key,
             checker := some { data := c.data.set c.len (some (fx key)), len := c.len + 1 } } := by
  simp [ZobristHashSetV.add, insert_eq_new fx c key hnm hlt]

theorem removeV_miss {E : Type} (fx : E → Nat) (zh : Nat) (c : CopiableHash) (key : E)
    (hnm : some (fx key) ∉ c.data.take c.len) :
    ZobristHashSetV.remove fx { hash := zh, checker := some c } key = none := by
  simp [ZobristHashSetV.remove, remove_eq_miss fx c key hnm]

theorem removeV_hit {E : Type} (fx : E → Nat) (zh : Nat) (c : CopiableHash) (key : E)
    (pos : Nat) (hf : (c.data.take c.len).findIdx? (slotHit (fx key)) = some pos) :
    ZobristHashSetV.remove fx { hash := zh, checker := some c } key =
      some { hash := add_remove_impl fx zh key,
             checker := some { data := listSwap c.data pos (c.len - 1), len := c.len - 1 } } := by
  simp [ZobristHashSetV.remove, remove_eq_hit fx c key pos hf]

/-- C7: on a verification-build accumulator whose checker is present (as after
`empty()`) and below capacity, `add(k)` aborts exactly when `k`'s probe key is
already among the occupied slots, `remove(k)` aborts exactly when it is not,
and a non-aborting call still applies the XOR update `add_remove_impl`. -/
theorem misuse_abort {E : Type} (fx : E → Nat) (z : ZobristHashSetV) (c : CopiableHash)
    (key : E) (hch : z.checker = some c) (hcap : c.len < DEBUG_MAP_HASH_SIZE) :
    (z.add fx key = none ↔ some (fx key) ∈ c.data.take c.len) ∧
    (z.remove fx key = none ↔ some (fx key) ∉ c.data.take c.len) ∧
    (some (fx key) ∉ c.data.take c.len →
      z.add fx key = some { hash := add_remove_impl fx z.hash key,
                            checker := some { data := c.data.set c.len (some (fx key)), len := c.len + 1 } }) ∧
    (some (fx key) ∈ c.data.take c.len →
      ∃ c', z.remove fx key =
        some { hash := add_remove_impl fx z.hash key, checker := some c' }) := by
  obtain ⟨zh, zc⟩ := z
  replace hch : zc = some c := hch
  subst hch
  refine ⟨⟨?add1, ?add2⟩, ⟨?rem1, ?rem2⟩, ?add3, ?rem3⟩
  · intro habort
    by_contra hnm
    rw [addV_new fx zh c key hnm hcap] at habort
    exact Option.noConfusion habort
  · intro hmem
    exact addV_dup fx zh c key hmem
  · intro habort
    intro hmem
    obtain ⟨pos, hf⟩ := findIdx?_slotHit_isSome (c.data.take c.len) 0 hmem
    rw [removeV_hit fx zh c key pos hf] at habort
    exact Option.noConfusion habort
  · intro hnm
    exact removeV_miss fx zh c key hnm
  · intro hnm
    exact addV_new fx zh c key hnm hcap
  · intro hmem
    obtain ⟨pos, hf⟩ := findIdx?_slotHit_isSome (c.data.take c.len) 0 hmem
    exact ⟨_, removeV_hit fx zh c key pos hf⟩

/-- Witness for C7: on the freshly created verification accumulator, adding
key 7 does not abort and applies the XOR update. -/
theorem misuse_abort_witness :
    ZobristHashSetV.empty.add (fun n : Nat => n) 7 =
      some { hash := add_remove_impl (fun n : Nat => n) ZobristHashSetV.empty.hash 7,
             checker := some { data := CopiableHash.empty.data.set CopiableHash.empty.len (some 7), len := CopiableHash.empty.len + 1 } } :=
  (misuse_abort (fun n : Nat => n) ZobristHashSetV.empty CopiableHash.empty 7 rfl
      (by decide)).2.2.1 (by simp [CopiableHash.empty])

/-! ### Hash transitions of successful verification-build calls -/

theorem addV_some_hash {E : Type} (fx : E → Nat) (z z2 : ZobristHashSetV) (key : E)
    (h : z.add fx key = some z2) : z2.hash = z.hash ^^^ fx key := by
  obtain ⟨zh, zc⟩ := z
  cases zc with
  | none =>
    simp only [ZobristHashSetV.add] at h
    simp [← Option.some.inj h, add_remove_impl]
  | some c =>
    simp only [ZobristHashSetV.add] at h
    cases hi : c.insert fx key with
    | none => rw [hi] at h; exact Option.noConfusion h
    | some p =>
      obtain ⟨c2, ok⟩ := p
      rw [hi] at h
      cases ok with
      | false => simp at h
      | true => simp [← Option.some.inj (by simpa using h), add_remove_impl]

theorem removeV_some_hash {E : Type} (fx : E → Nat) (z z2 : ZobristHashSetV) (key : E)
    (h : z.remove fx key = some z2) : z2.hash = z.hash ^^^ fx key := by
  obtain ⟨zh, zc⟩ := z
  cases zc with
  | none =>
    simp only [ZobristHashSetV.remove] at h
    simp [← Option.some.inj h, add_remove_impl]
  | some c =>
    simp only [ZobristHashSetV.remove] at h
    cases hr : c.remove fx key with
    | mk c2 ok =>
      rw [hr] at h
      cases ok with
      | false => simp at h
      | true => simp [← Option.some.inj (by simpa using h), add_remove_impl]

theorem stepV_some_hash {E : Type} (fx : E → Nat) (z z2 : ZobristHashSetV) (op : Bool × E)
    (h : stepV fx z op = some z2) : z2.hash = z.hash ^^^ fx op.2 := by
  unfold stepV at h
  cases hb : op.1 <;> rw [hb] at h
  · exact removeV_some_hash fx z z2 op.2 (by simpa using h)
  · exact addV_some_hash fx z z2 op.2 (by simpa using h)

theorem runV_runP_trace {E : Type} (fx : E → Nat) :
    ∀ (ops : List (Bool × E)) (zv : ZobristHashSetV) (zp : ZobristHashSet),
      zv.hash = zp.hash →
      ∀ zf tr, runV fx ops zv = some (zf, tr) →
        tr = (runP fx ops zp).2 ∧ zf.hash = (runP fx ops zp).1.hash := by
  intro ops
  induction ops with
  | nil =>
    intro zv zp hh zf tr h
    simp only [runV] at h
    injection (Option.some.inj h) with h1 h2
    subst h1
    subst h2
    exact ⟨rfl, hh⟩
  | cons op rest ih =>
    intro zv zp hh zf tr h
    simp only [runV] at h
    cases hs : stepV fx zv op with
    | none => simp [hs] at h
    | some z2 =>
      simp only [hs] at h
      cases hr : runV fx rest z2 with
      | none => simp [hr] at h
      | some p =>
        obtain ⟨zf', tr'⟩ := p
        simp only [hr] at h
        injection (Option.some.inj h) with h1 h2
        subst h1
        subst h2
        have hz2 : z2.hash = (stepP fx zp op).hash := by
          rw [stepV_some_hash fx zv z2 op hs, stepP_hash, hh]
        obtain ⟨ih1, ih2⟩ := ih z2 (stepP fx zp op) hz2 zf' tr' hr
        constructor
        · simp only [runP]
          cases hq : runP fx rest (stepP fx zp op) with
          | mk a b =>
            rw [hq] at ih1
            simp only [hz2, ih1]
        · simp only [runP]
          cases hq : runP fx rest (stepP fx zp op) with
          | mk a b =>
            rw [hq] at ih2
            simpa using ih2

/-- C8: for every call sequence from `empty()` that the verification build does
not reject, the observable hash after every call, and the final hash, coincide
with the production build's run of the same sequence from `empty()`. -/
theorem mode_equivalence {E : Type} (fx : E → Nat) (ops : List (Bool × E))
    (zf : ZobristHashSetV) (tr : List Nat)
    (h : runV fx ops ZobristHashSetV.empty = some (zf, tr)) :
    tr = (runP fx ops ZobristHashSet.empty).2 ∧
    zf.hash = (runP fx ops ZobristHashSet.empty).1.hash :=
  runV_runP_trace fx ops ZobristHashSetV.empty ZobristHashSet.empty rfl zf tr h

/-- Witness for C8 on the one-call sequence `add(3)`. -/
theorem mode_equivalence_witness :
    [(0 : Nat) ^^^ 3] = (runP (fun n : Nat => n) [(true, 3)] ZobristHashSet.empty).2 ∧
    ({ hash := (0 : Nat) ^^^ 3,
       checker := some { data := CopiableHash.empty.data.set 0 (some 3), len := 1 } } :
        ZobristHashSetV).hash =
      (runP (fun n : Nat => n) [(true, 3)] ZobristHashSet.empty).1.hash :=
  mode_equivalence (fun n : Nat => n) [(true, 3)]
    { hash := (0 : Nat) ^^^ 3,
      checker := some { data := CopiableHash.empty.data.set 0 (some 3), len := 1 } }
    [(0 : Nat) ^^^ 3] (by rfl)

/-! ### Checker-free runs -/

theorem runV_noChecker {E : Type} (fx : E → Nat) :
    ∀ (ops : List (Bool × E)) (h : Nat),
      runV fx ops { hash := h, checker := none } =
        some ({ hash := (runP fx ops { hash := h }).1.hash, checker := none },
          (runP fx ops { hash := h }).2) := by
  intro ops
  induction ops with
  | nil => intro h; rfl
  | cons op rest ih =>
    intro h
    have hstep : stepV fx { hash := h, checker := none } op =
        some { hash := h ^^^ fx op.2, checker := none } := by
      cases hb : op.1 <;>
        simp [stepV, ZobristHashSetV.add, ZobristHashSetV.remove, hb, add_remove_impl]
    have hsp : stepP fx { hash := h } op = { hash := h ^^^ fx op.2 } := by
      apply zobristHashSet_hash_eq
      rw [stepP_hash]
    simp only [runV, hstep, ih (h ^^^ fx op.2), runP, hsp]

/-- C9: `from(raw)` yields hash exactly `raw` with a disabled (`None`) checker,
the u64 round-trip is the identity, and the reconstructed instance's future
hash transitions agree with those of the instance the raw value came from:
production runs coincide after the round-trip, and the reconstructed
verification instance never aborts and tracks the production hash trace. -/
theorem from_raw_roundtrip {E : Type} (fx : E → Nat) (raw : Nat)
    (ops : List (Bool × E)) (z : ZobristHashSet) :
    (ZobristHashSetV.ofU64 raw).hash = raw ∧
    (ZobristHashSetV.ofU64 raw).checker = none ∧
    (ZobristHashSetV.ofU64 raw).toU64 = raw ∧
    (ZobristHashSet.ofU64 raw).toU64 = raw ∧
    runP fx ops (ZobristHashSet.ofU64 z.toU64) = runP fx ops z ∧
    runV fx ops (ZobristHashSetV.ofU64 raw) =
      some ({ hash := (runP fx ops (ZobristHashSet.ofU64 raw)).1.hash, checker := none },
        (runP fx ops (ZobristHashSet.ofU64 raw)).2) := by
  refine ⟨rfl, rfl, rfl, rfl, ?same, ?noabort⟩
  · have hz : ZobristHashSet.ofU64 z.toU64 = z := by cases z; rfl
    rw [hz]
  · exact runV_noChecker fx ops raw

/-! ### Checker versus reference set -/

theorem runBoth {E : Type} [DecidableEq E] (fx : E → Nat) (hinj : Function.Injective fx) :
    ∀ (ops : List (Bool × E)) (s : List E) (c : CopiableHash),
      c.data.length = DEBUG_MAP_HASH_SIZE →
      c.len ≤ DEBUG_MAP_HASH_SIZE →
      List.Perm (c.data.take c.len) (s.map (fun k => some (fx k))) →
      c.len + ops.length ≤ DEBUG_MAP_HASH_SIZE →
      ∃ c' bs, runChecker fx ops c = some (c', bs) ∧ (runRef ops s).2 = bs := by
  intro ops
  induction ops with
  | nil => intro s c _ _ _ _; exact ⟨c, [], rfl, rfl⟩
  | cons op rest ih =>
    intro s c hd hl hperm hcap
    obtain ⟨b, k⟩ := op
    have hcap' : c.len + rest.length ≤ DEBUG_MAP_HASH_SIZE := by
      simp only [List.length_cons] at hcap; omega
    have hmem_iff : some (fx k) ∈ c.data.take c.len ↔ k ∈ s := by
      rw [hperm.mem_iff]
      constructor
      · intro hin
        obtain ⟨k', hk', he⟩ := List.mem_map.mp hin
        have he2 : fx k' = fx k := by simpa using he
        exact (hinj he2) ▸ hk'
      · intro hks
        exact List.mem_map.mpr ⟨k, hks, rfl⟩
    cases b with
    | true =>
      by_cases hks : k ∈ s
      · have hins := insert_eq_dup fx c k (hmem_iff.mpr hks)
        obtain ⟨c', bs, hrun, hbs⟩ := ih s c hd hl hperm hcap'
        have hstep : stepC fx c (true, k) = some (c, false) := by simp [stepC, hins]
        refine ⟨c', false :: bs, ?_, ?_⟩
        · simp only [runChecker, hstep, hrun]
        · have hsr : stepRef s (true, k) = (s, false) := by simp [stepRef, refInsert, hks]
          simp only [runRef, hsr]
          cases hq : runRef rest s with
          | mk sf bs2 =>
            rw [hq] at hbs
            simp only [hq]
            simpa using hbs
      · have hlt : c.len < DEBUG_MAP_HASH_SIZE := by
          simp only [List.length_cons] at hcap; omega
        have hnm : some (fx k) ∉ c.data.take c.len := fun hin => hks (hmem_iff.mp hin)
        have hins := insert_eq_new fx c k hnm hlt
        have hd2 : ({ data := c.data.set c.len (some (fx k)), len := c.len + 1 } :
            CopiableHash).data.length = DEBUG_MAP_HASH_SIZE := by
          simp [List.length_set, hd]
        have hl2 : ({ data := c.data.set c.len (some (fx k)), len := c.len + 1 } :
            CopiableHash).len ≤ DEBUG_MAP_HASH_SIZE := by
          simp only []; omega
        have htake2 : ({ data := c.data.set c.len (some (fx k)), len := c.len + 1 } :
            CopiableHash).data.take (c.len + 1) =
            c.data.take c.len ++ [some (fx k)] :=
          take_set_self c.data c.len (some (fx k)) (by rw [hd]; exact hlt)
        have hperm2 : List.Perm
            (({ data := c.data.set c.len (some (fx k)), len := c.len + 1 } :
              CopiableHash).data.take
              ({ data := c.data.set c.len (some (fx k)), len := c.len + 1 } :
                CopiableHash).len)
            ((k :: s).map (fun k => some (fx k))) := by
          rw [show ({ data := c.data.set c.len (some (fx k)), len := c.len + 1 } :
              CopiableHash).len = c.len + 1 from rfl, htake2, List.map_cons]
          exact (List.perm_append_singleton _ _).trans (hperm.cons _)
        obtain ⟨c', bs, hrun, hbs⟩ :=
          ih (k :: s) { data := c.data.set c.len (some (fx k)), len := c.len + 1 }
            hd2 hl2 hperm2
            (by simp only [List.length_cons] at hcap ⊢; omega)
        have hstep : stepC fx c (true, k) =
            some ({ data := c.data.set c.len (some (fx k)), len := c.len + 1 }, true) := by
          simp [stepC, hins]
        refine ⟨c', true :: bs, ?_, ?_⟩
        · simp only [runChecker, hstep, hrun]
        · have hsr : stepRef s (true, k) = (k :: s, true) := by
            simp [stepRef, refInsert, hks]
          simp only [runRef, hsr]
          cases hq : runRef rest (k :: s) with
          | mk sf bs2 =>
            rw [hq] at hbs
            simp only [hq]
            simpa using hbs
    | false =>
      by_cases hks : k ∈ s
      · have hmem := hmem_iff.mpr hks
        obtain ⟨pos, hf⟩ := findIdx?_slotHit_isSome (c.data.take c.len) 0 hmem
        have hrem := remove_eq_hit fx c k pos hf
        obtain ⟨_, h2, h3, _⟩ := findIdx?_slotHit_some (c.data.take c.len) 0 pos hf
        simp only [Nat.sub_zero] at h2 h3
        have hplen : (c.data.take c.len).length = c.len := by
          rw [List.length_take, hd]; exact min_eq_left hl
        have hposlt : pos < c.len := hplen ▸ h2
        have hd2 : ({ data := listSwap c.data pos (c.len - 1), len := c.len - 1 } :
            CopiableHash).data.length = DEBUG_MAP_HASH_SIZE := by
          simp [listSwap_length, hd]
        have hl2 : ({ data := listSwap c.data pos (c.len - 1), len := c.len - 1 } :
            CopiableHash).len ≤ DEBUG_MAP_HASH_SIZE := by
          simp only []; omega
        have hperm2 : List.Perm
            (({ data := listSwap c.data pos (c.len - 1), len := c.len - 1 } :
              CopiableHash).data.take
              ({ data := listSwap c.data pos (c.len - 1), len := c.len - 1 } :
                CopiableHash).len)
            ((s.erase k).map (fun k => some (fx k))) := by
          have hsw := swap_take_perm c.data pos c.len hposlt (by rw [hd]; exact hl)
          have hB := perm_cons_eraseIdx (c.data.take c.len) pos (some (fx k)) h3
          have hD : List.Perm s (k :: s.erase k) := List.perm_cons_erase hks
          have hchain : List.Perm
              (some (fx k) :: (c.data.take c.len).eraseIdx pos)
              (some (fx k) :: (s.erase k).map (fun k => some (fx k))) := by
            refine (hB.symm.trans hperm).trans ?_
            have hDm := hD.map (fun k => some (fx k))
            simpa using hDm
          exact hsw.trans hchain.cons_inv
        obtain ⟨c', bs, hrun, hbs⟩ :=
          ih (s.erase k) { data := listSwap c.data pos (c.len - 1), len := c.len - 1 }
            hd2 hl2 hperm2 (by simp only []; omega)
        have hstep : stepC fx c (false, k) =
            some ({ data := listSwap c.data pos (c.len - 1), len := c.len - 1 }, true) := by
          simp [stepC, hrem]
        refine ⟨c', true :: bs, ?_, ?_⟩
        · simp only [runChecker, hstep, hrun]
        · have hsr : stepRef s (false, k) = (s.erase k, true) := by
            simp [stepRef, refRemove, hks]
          simp only [runRef, hsr]
          cases hq : runRef rest (s.erase k) with
          | mk sf bs2 =>
            rw [hq] at hbs
            simp only [hq]
            simpa using hbs
      · have hnm : some (fx k) ∉ c.data.take c.len := fun hin => hks (hmem_iff.mp hin)
        have hrem := remove_eq_miss fx c k hnm
        obtain ⟨c', bs, hrun, hbs⟩ := ih s c hd hl hperm hcap'
        have hstep : stepC fx c (false, k) = some (c, false) := by simp [stepC, hrem]
        refine ⟨c', false :: bs, ?_, ?_⟩
        · simp only [runChecker, hstep, hrun]
        · have hsr : stepRef s (false, k) = (s, false) := by
            simp [stepRef, refRemove, hks]
          simp only [runRef, hsr]
          cases hq : runRef rest s with
          | mk sf bs2 =>
            rw [hq] at hbs
            simp only [hq]
            simpa using hbs

/-- C4: a collision-free key sequence shorter than the capacity, run in
parallel on the bounded checker (from empty) and on the reference set (from
empty), never aborts and produces the identical boolean answer on every
single insert/remove call. -/
theorem checker_equivalence {E : Type} [DecidableEq E] (fx : E → Nat)
    (hinj : Function.Injective fx) (ops : List (Bool × E))
    (hN : ops.length < DEBUG_MAP_HASH_SIZE) :
    ∃ c bs, runChecker fx ops CopiableHash.empty = some (c, bs) ∧
      (runRef ops []).2 = bs :=
  runBoth fx hinj ops [] CopiableHash.empty
    (by simp [CopiableHash.empty, List.length_replicate])
    (by simp [CopiableHash.empty])
    (by simp [CopiableHash.empty])
    (by simp only [CopiableHash.empty]; omega)

/-- Witness for C4 on a concrete three-call sequence. -/
theorem checker_equivalence_witness :
    ∃ c bs, runChecker (fun n : Nat => n) [(true, 1), (false, 1), (false, 2)]
        CopiableHash.empty = some (c, bs) ∧
      (runRef [(true, 1), (false, 1), (false, 2)] []).2 = bs :=
  checker_equivalence (fun n : Nat => n) (fun _ _ h => h)
    [(true, 1), (false, 1), (false, 2)] (by decide)

/-! ### The reachable-state invariant of the verification build -/

theorem map_eraseIdx {α β : Type} (f : α → β) :
    ∀ (l : List α) (i : Nat), (l.map f).eraseIdx i = (l.eraseIdx i).map f := by
  intro l
  induction l with
  | nil => intro i; rfl
  | cons a t ih =>
    intro i
    cases i with
    | zero => simp
    | succ j => simp only [List.map_cons, List.eraseIdx_cons_succ, ih]

/-- The synchronization invariant between the hash field and the checker in
the verification build: the checker is present, its occupied slots are
contiguous `some` probe keys, pairwise distinct, the occupied count is within
capacity, and the hash equals the XOR-fold of the stored probe keys. -/
def CheckerInv (z : ZobristHashSetV) : Prop :=
  ∃ c hs, z.checker = some c ∧ c.data.length = DEBUG_MAP_HASH_SIZE ∧
    c.len ≤ DEBUG_MAP_HASH_SIZE ∧ c.data.take c.len = hs.map some ∧ hs.Nodup ∧
    z.hash = xorFold hs

theorem stepV_inv {E : Type} (fx : E → Nat) (z z2 : ZobristHashSetV) (op : Bool × E)
    (hinv : CheckerInv z) (hstep : stepV fx z op = some z2) : CheckerInv z2 := by
  obtain ⟨c, hs, hch, hd, hl, htk, hnd, hh⟩ := hinv
  obtain ⟨zh, zc⟩ := z
  replace hch : zc = some c := hch
  subst hch
  replace hh : zh = xorFold hs := hh
  replace htk : c.data.take c.len = hs.map some := htk
  unfold stepV at hstep
  cases hb : op.1 <;> rw [hb] at hstep
  case false =>
    replace hstep : ZobristHashSetV.remove fx { hash := zh, checker := some c } op.2 =
        some z2 := by simpa using hstep
    by_cases hmem : some (fx op.2) ∈ c.data.take c.len
    · obtain ⟨pos, hf⟩ := findIdx?_slotHit_isSome (c.data.take c.len) 0 hmem
      rw [removeV_hit fx zh c op.2 pos hf] at hstep
      obtain ⟨_, h2p, h3p, _⟩ := findIdx?_slotHit_some (c.data.take c.len) 0 pos hf
      simp only [Nat.sub_zero] at h2p h3p
      have hplen : (c.data.take c.len).length = c.len := by
        rw [List.length_take, hd]; exact min_eq_left hl
      have hposlt : pos < c.len := hplen ▸ h2p
      have hsw := swap_take_perm c.data pos c.len hposlt (by rw [hd]; exact hl)
      rw [htk, map_eraseIdx some hs pos] at hsw
      obtain ⟨hs', htk', hperm'⟩ := perm_map_some hsw
      have h3' : hs[pos]? = some (fx op.2) := by
        rw [htk, List.getElem?_map] at h3p
        have hgen : ∀ (o : Option Nat), o.map some = some (some (fx op.2)) →
            o = some (fx op.2) := by
          intro o ho
          cases o with
          | none => simp at ho
          | some y => simpa using ho
        exact hgen hs[pos]? h3p
      have hcons := perm_cons_eraseIdx hs pos (fx op.2) h3'
      have hz2 := Option.some.inj hstep
      refine ⟨{ data := listSwap c.data pos (c.len - 1), len := c.len - 1 }, hs',
        ?_, ?_, ?_, ?_, ?_, ?_⟩
      · rw [← hz2]
      · simp [listSwap_length, hd]
      · simp only []; omega
      · exact htk'
      · exact (hperm'.nodup_iff).mpr ((List.eraseIdx_sublist hs pos).nodup hnd)
      · rw [← hz2]
        show zh ^^^ fx op.2 = xorFold hs'
        rw [hh, xorFold_perm hcons, xorFold_cons, xorFold_perm hperm',
          Nat.xor_comm (fx op.2) (xorFold (hs.eraseIdx pos))]
        exact Nat.xor_cancel_right (fx op.2) (xorFold (hs.eraseIdx pos))
    · rw [removeV_miss fx zh c op.2 hmem] at hstep
      exact Option.noConfusion hstep
  case true =>
    replace hstep : ZobristHashSetV.add fx { hash := zh, checker := some c } op.2 =
        some z2 := by simpa using hstep
    by_cases hmem : some (fx op.2) ∈ c.data.take c.len
    · rw [addV_dup fx zh c op.2 hmem] at hstep
      exact Option.noConfusion hstep
    · by_cases hlt : c.len < DEBUG_MAP_HASH_SIZE
      · rw [addV_new fx zh c op.2 hmem hlt] at hstep
        have hz2 := Option.some.inj hstep
        have hni : fx op.2 ∉ hs := by
          intro hin
          exact hmem (by rw [htk]; exact List.mem_map.mpr ⟨_, hin, rfl⟩)
        refine ⟨{ data := c.data.set c.len (some (fx op.2)), len := c.len + 1 },
          hs ++ [fx op.2], ?_, ?_, ?_, ?_, ?_, ?_⟩
        · rw [← hz2]
        · simp [List.length_set, hd]
        · simp only []; omega
        · show (c.data.set c.len (some (fx op.2))).take (c.len + 1) =
            (hs ++ [fx op.2]).map some
          rw [take_set_self c.data c.len (some (fx op.2)) (by rw [hd]; exact hlt), htk]
          simp
        · rw [List.nodup_append]
          refine ⟨hnd, List.nodup_singleton _, ?_⟩
          intro a ha hb
          rw [List.mem_singleton] at hb
          exact hni (hb ▸ ha)
        · rw [← hz2]
          show zh ^^^ fx op.2 = xorFold (hs ++ [fx op.2])
          rw [hh, xorFold_append, xorFold_cons, xorFold_nil, Nat.xor_zero]
      · have hcap : ZobristHashSetV.add fx { hash := zh, checker := some c } op.2 =
            none := by
          simp [ZobristHashSetV.add, insert_eq_cap fx c op.2 hmem hlt]
        rw [hcap] at hstep
        exact Option.noConfusion hstep

theorem runV_inv {E : Type} (fx : E → Nat) :
    ∀ (ops : List (Bool × E)) (z0 z : ZobristHashSetV) (tr : List Nat),
      CheckerInv z0 → runV fx ops z0 = some (z, tr) → CheckerInv z := by
  intro ops
  induction ops with
  | nil =>
    intro z0 z tr hinv h
    simp only [runV] at h
    injection (Option.some.inj h) with h1 h2
    subst h1
    exact hinv
  | cons op rest ih =>
    intro z0 z tr hinv h
    simp only [runV] at h
    cases hs0 : stepV fx z0 op with
    | none => simp [hs0] at h
    | some z1 =>
      simp only [hs0] at h
      cases hr : runV fx rest z1 with
      | none => simp [hr] at h
      | some p =>
        obtain ⟨zf, tr'⟩ := p
        simp only [hr] at h
        injection (Option.some.inj h) with h1 h2
        subst h1
        exact ih z1 zf tr' (stepV_inv fx z0 z1 op hinv hs0) hr

theorem checkerInv_empty : CheckerInv ZobristHashSetV.empty := by
  refine ⟨CopiableHash.empty, [], rfl, ?_, ?_, ?_, List.nodup_nil, rfl⟩
  · simp [CopiableHash.empty, List.length_replicate]
  · simp [CopiableHash.empty]
  · simp [CopiableHash.empty]

/-- C10: every verification-build accumulator reached from `empty()` by a
non-aborting call sequence has a present checker whose occupied slots
`0..len` all hold `some` probe key, those probe keys are pairwise distinct,
`len` never exceeds the capacity constant 8192, and the hash field equals the
XOR-fold of the stored probe keys. -/
theorem reachable_invariant {E : Type} (fx : E → Nat) (ops : List (Bool × E))
    (z : ZobristHashSetV) (tr : List Nat)
    (h : runV fx ops ZobristHashSetV.empty = some (z, tr)) :
    ∃ c hs, z.checker = some c ∧ c.data.length = DEBUG_MAP_HASH_SIZE ∧
      DEBUG_MAP_HASH_SIZE = 8192 ∧ c.len ≤ 8192 ∧
      c.data.take c.len = hs.map some ∧ hs.Nodup ∧ z.hash = xorFold hs := by
  obtain ⟨c, hs, hch, hd, hl, htk, hnd, hh⟩ :=
    runV_inv fx ops ZobristHashSetV.empty z tr checkerInv_empty h
  have hsz : DEBUG_MAP_HASH_SIZE = 8192 := by norm_num [DEBUG_MAP_HASH_SIZE]
  exact ⟨c, hs, hch, hd, hsz, hsz ▸ hl, htk, hnd, hh⟩

/-- The state reached by `add(1)` from a fresh verification accumulator, used
by the C10 witness. -/
def c10State : ZobristHashSetV :=
  { hash := (0 : Nat) ^^^ 1,
    checker := some { data := CopiableHash.empty.data.set 0 (some 1), len := 1 } }

/-- Witness for C10 after the single call `add(1)`. -/
theorem reachable_invariant_witness :
    ∃ c hs, c10State.checker = some c ∧ c.data.length = DEBUG_MAP_HASH_SIZE ∧
      DEBUG_MAP_HASH_SIZE = 8192 ∧ c.len ≤ 8192 ∧
      c.data.take c.len = hs.map some ∧ hs.Nodup ∧ c10State.hash = xorFold hs :=
  reachable_invariant (fun n : Nat => n) [(true, 1)] c10State [(0 : Nat) ^^^ 1] (by rfl)
